import Mathlib

/-!
Verification of the GIFt core (`src/GIFt/__init__.py`): a shallow embedding of
the module tree, the `ModuleIterator` snapshot iterator, the recursive
`modify_modules` walk, and the two state-dict hooks, together with theorems
settling the specification's claims about them.

Modelling conventions:
* A PyTorch `nn.Module` is modelled as a finite tree node `Module` holding its
  `_modules` registry (an insertion-ordered association list of named
  children), its directly-owned parameters (name and `requires_grad` flag),
  its directly-owned buffers (name and value), the `FinetuableModule` marker
  (the source checks it with `isinstance`; here it is an explicit flag), and
  its runtime class name.
* Tensor payloads are irrelevant to every claim, so buffer/state-dict values
  are plain `Nat`s and a parameter is just its `requires_grad : Bool`.
* A `FineTuningStrategy` call `strategy(module, name, global_name, class_name,
  current_module)` may, per the strategy interface, replace the registration
  of `current_module` in the parent's registry and returns a `matched` flag.
  It is modelled as a pure function returning the flag together with
  `Option Module`: `some r` means the strategy installed `r` as the parent's
  registration for that child name, `none` means it left the registration
  alone (so the registry keeps pointing at the yielded child object).
* The walk's heap effects are made explicit: `modify_modules` returns the
  final state of the tree (`MResult.ok`) or the raised `ValueError` message
  (`MResult.error`), together with a trace of the observable actions
  (strategy invocation, recursion into a child, freezing a child) in the
  order the source performs them.
-/

namespace GIFt

/-- A module tree node: the `_modules` child registry (ordered, names unique
among siblings), the directly-owned parameters as (name, requires_grad)
pairs, the directly-owned buffers as (name, value) pairs, whether the node
carries the `FinetuableModule` marker, and its class name. -/
inductive Module where
  | mk (children : List (String × Module)) (params : List (String × Bool))
       (buffers : List (String × Nat)) (finetuable : Bool) (className : String)

mutual

def decEqModule : (a b : Module) → Decidable (a = b)
  | .mk c1 p1 b1 f1 n1, .mk c2 p2 b2 f2 n2 =>
    match decEqModuleChildren c1 c2 with
    | isFalse h => isFalse (by intro he; cases he; exact h rfl)
    | isTrue h1 =>
      match decEq p1 p2, decEq b1 b2, decEq f1 f2, decEq n1 n2 with
      | isTrue h2, isTrue h3, isTrue h4, isTrue h5 =>
          isTrue (by rw [h1, h2, h3, h4, h5])
      | isFalse h, _, _, _ => isFalse (by intro he; cases he; exact h rfl)
      | _, isFalse h, _, _ => isFalse (by intro he; cases he; exact h rfl)
      | _, _, isFalse h, _ => isFalse (by intro he; cases he; exact h rfl)
      | _, _, _, isFalse h => isFalse (by intro he; cases he; exact h rfl)

def decEqModuleChildren : (a b : List (String × Module)) → Decidable (a = b)
  | [], [] => isTrue rfl
  | [], _ :: _ => isFalse (by intro he; cases he)
  | _ :: _, [] => isFalse (by intro he; cases he)
  | (n1, m1) :: r1, (n2, m2) :: r2 =>
    match decEq n1 n2, decEqModule m1 m2, decEqModuleChildren r1 r2 with
    | isTrue h1, isTrue h2, isTrue h3 => isTrue (by rw [h1, h2, h3])
    | isFalse h, _, _ => isFalse (by intro he; cases he; exact h rfl)
    | _, isFalse h, _ => isFalse (by intro he; cases he; exact h rfl)
    | _, _, isFalse h => isFalse (by intro he; cases he; exact h rfl)

end

instance : DecidableEq Module := decEqModule

def Module.children : Module → List (String × Module)
  | .mk c _ _ _ _ => c

def Module.params : Module → List (String × Bool)
  | .mk _ p _ _ _ => p

def Module.buffers : Module → List (String × Nat)
  | .mk _ _ b _ _ => b

def Module.finetuable : Module → Bool
  | .mk _ _ _ f _ => f

def Module.className : Module → String
  | .mk _ _ _ _ n => n

/-- `self.parent_name+'.'+layer_name if self.parent_name !="" else layer_name`
(source line 40): the dotted global name of a child. -/
def globalName (parent_name layer_name : String) : String :=
  if parent_name ≠ "" then parent_name ++ "." ++ layer_name else layer_name

/-- The state of a `ModuleIterator`: the module it was built over, the
snapshot `list(self.module._modules.items())` taken at construction, the
current index, and the parent's dotted name. -/
structure ModuleIterator where
  module : Module
  iterations : List (String × Module)
  _index : Nat
  parent_name : String
deriving DecidableEq


/-- `ModuleIterator.__init__`: snapshots the children registry. -/
def ModuleIterator.init (module : Module) (parent_name : String) : ModuleIterator :=
  { module := module, iterations := module.children, _index := 0, parent_name := parent_name }

/-- `ModuleIterator.__len__`. -/
def ModuleIterator.len (it : ModuleIterator) : Nat :=
  it.iterations.length

/-- One yielded element: (layer name, global name, layer class name, layer,
has_child). -/
abbrev IterItem := String × String × String × Module × Bool

/-- `ModuleIterator.__next__`: yields the snapshot entry at the current index
(computing `has_child` from the child's registry at yield time) and advances,
or signals `StopIteration` (`none`) when the snapshot is exhausted. -/
def ModuleIterator.next (it : ModuleIterator) : Option (IterItem × ModuleIterator) :=
  if h : it._index < it.len then
    let layer_name := (it.iterations.get ⟨it._index, h⟩).1
    let layer := (it.iterations.get ⟨it._index, h⟩).2
    let layer_class_name := layer.className
    let has_child := !layer.children.isEmpty
    let global_name := globalName it.parent_name layer_name
    some ((layer_name, global_name, layer_class_name, layer, has_child),
          { it with _index := it._index + 1 })
  else
    none

/-- Driving a `ModuleIterator` to exhaustion: the full sequence it yields. -/
def ModuleIterator.run (it : ModuleIterator) : List IterItem :=
  match h : it.next with
  | none => []
  | some (item, it') => item :: ModuleIterator.run it'
termination_by it.len - it._index
decreasing_by
  simp only [ModuleIterator.next] at h
  split at h
  · simp only [Option.some.injEq, Prod.mk.injEq] at h
    obtain ⟨-, h2⟩ := h
    subst h2
    simp only [ModuleIterator.len] at *
    omega
  · simp at h

mutual

/-- Modelled from the spec: `freeze_module` (imported from `GIFt.utils`, a file
of this repository not under `src/`) "set[s] every parameter directly owned by
the child (and transitively, per framework semantics) to non-trainable". -/
def freeze_module : Module → Module
  | .mk children params bufs ft cn =>
      .mk (freezeChildren children) (params.map (fun q => (q.1, false))) bufs ft cn

def freezeChildren : List (String × Module) → List (String × Module)
  | [] => []
  | (n, c) :: rest => (n, freeze_module c) :: freezeChildren rest

end

mutual

/-- External framework semantics (`nn.Module.named_parameters()`): every
parameter of the tree under its dotted global name with its requires_grad
flag — own parameters first, then each child's, in registry order. -/
def named_parameters : Module → String → List (String × Bool)
  | .mk children params _ _ _, pre =>
      params.map (fun q => (globalName pre q.1, q.2)) ++ namedParametersChildren children pre

def namedParametersChildren : List (String × Module) → String → List (String × Bool)
  | [], _ => []
  | (n, c) :: rest, pre =>
      named_parameters c (globalName pre n) ++ namedParametersChildren rest pre

end

mutual

/-- External framework semantics (`nn.Module.state_dict()`): the persisted
mapping of the tree — parameter entries (tensor payloads are irrelevant here
and recorded as `0`), then buffer entries, then each child's entries, all
under dotted global names. -/
def state_dict : Module → String → List (String × Nat)
  | .mk children params bufs _ _, pre =>
      params.map (fun q => (globalName pre q.1, 0)) ++
      bufs.map (fun q => (globalName pre q.1, q.2)) ++
      stateDictChildren children pre

def stateDictChildren : List (String × Module) → String → List (String × Nat)
  | [], _ => []
  | (n, c) :: rest, pre => state_dict c (globalName pre n) ++ stateDictChildren rest pre

end

/-- Python dict assignment `registry[name] = m`: overwrites in place (keeping
the key's position) when the key exists, appends otherwise. -/
def setChildIn : List (String × Module) → String → Module → List (String × Module)
  | [], name, nc => [(name, nc)]
  | (n, c) :: rest, name, nc =>
      if n = name then (name, nc) :: rest else (n, c) :: setChildIn rest name nc

/-- `module._modules[name] = nc`. -/
def Module.setChild : Module → String → Module → Module
  | .mk children params bufs ft cn, name, nc =>
      .mk (setChildIn children name nc) params bufs ft cn

/-- A `FineTuningStrategy`: called as
`strategy(module, name, global_name, class_name, current_module)`, returns the
`matched` flag; its only permitted side effect (per the strategy interface) is
replacing the parent's registration of `current_module`, modelled by the
`Option Module` component (`some r` = `module._modules[name] = r` was
performed during the call, `none` = registration untouched). -/
def Strategy := Module → String → String → String → Module → Bool × Option Module

/-- Observable actions of the `modify_modules` walk, in source order:
`strat g find` = the strategy was invoked on the child with global name `g`
and returned `find`; `enter g c` = the walk recursed into the child object
`c` (global name `g`); `freeze g c` = `freeze_module` was applied to the
child object `c` (global name `g`, `c` as it was at that moment). -/
inductive Event where
  | strat (global_name : String) (find : Bool)
  | enter (global_name : String) (child : Module)
  | freeze (global_name : String) (child : Module)
deriving DecidableEq

/-- Outcome of a `modify_modules` call: the final state of the walked module
and the event trace, or the raised `ValueError` message together with the
trace up to the raise. -/
inductive MResult where
  | ok (module : Module) (events : List Event)
  | error (msg : String) (events : List Event)
deriving DecidableEq

def MResult.events : MResult → List Event
  | .ok _ es => es
  | .error _ es => es

/-- Prefix a result's trace with earlier events (bookkeeping only; the
ok/error outcome is untouched). -/
def MResult.prepend (es : List Event) : MResult → MResult
  | .ok m es2 => .ok m (es ++ es2)
  | .error msg es2 => .error msg (es ++ es2)

/-- The `for` loop of `modify_modules` (source lines 48-56) over the remainder
of the `ModuleIterator` snapshot, with the heap made explicit: `parent` is the
current state of the module whose children are being processed. Per yielded
`(name, current_module)`: raise if the child carries the `FinetuableModule`
marker; call the strategy (which may replace the child's registration); if
`not find and has_child`, recurse into `current_module` — the snapshot's child
object — otherwise `freeze_module(current_module)`. The parent's registry
entry for `name` afterwards is the strategy's replacement if one was
installed (the recursion's or freeze's effect on the detached original is then
invisible in the tree), else the recursed/frozen child itself. -/
def modifyGo (fine_tuning_strategy : Strategy) :
    String → Module → List (String × Module) → MResult
  | _, parent, [] => .ok parent []
  | parent_name, parent, (name, current_module) :: rest =>
    let global_name := globalName parent_name name
    let has_child := !current_module.children.isEmpty
    if current_module.finetuable then
      .error ("Layer " ++ global_name ++ " is already finetuable") []
    else
      let res := fine_tuning_strategy parent name global_name
                   current_module.className current_module
      let find := res.1
      let registered := res.2
      if !find && has_child then
        match modifyGo fine_tuning_strategy global_name current_module
                current_module.children with
        | .error msg es =>
            .error msg ([.strat global_name find, .enter global_name current_module] ++ es)
        | .ok child' es =>
            (modifyGo fine_tuning_strategy parent_name
                (parent.setChild name (registered.getD child')) rest).prepend
              ([.strat global_name find, .enter global_name current_module] ++ es)
      else
        (modifyGo fine_tuning_strategy parent_name
            (parent.setChild name (registered.getD (freeze_module current_module)))
            rest).prepend
          [.strat global_name find, .freeze global_name current_module]
termination_by _ _ l => sizeOf l
decreasing_by
  all_goals
    cases current_module with
      | mk c p b f n => simp [Module.children] <;> omega

/-- `modify_modules(module, fine_tuning_strategy, parent_name="")` (source
lines 46-56). -/
def modify_modules (module : Module) (fine_tuning_strategy : Strategy)
    (parent_name : String := "") : MResult :=
  modifyGo fine_tuning_strategy parent_name module module.children

/-- `fine_tuning_sd_hook(module, state_dict, ...)` (source lines 58-70):
collects the names of parameters whose requires_grad flag is false, then
builds `new_state_dict` from the entries of `state_dict` whose key is not in
that list. -/
def fine_tuning_sd_hook (module : Module) (state_dict : List (String × Nat)) :
    List (String × Nat) :=
  let not_requires_grad_paras :=
    ((named_parameters module "").filter (fun p => !p.2)).map (fun p => p.1)
  state_dict.foldl
    (fun new_state_dict kv =>
      if kv.1 ∉ not_requires_grad_paras then new_state_dict ++ [kv] else new_state_dict)
    []

/-- State-passing form of `fine_tuning_sd_hook`, making the heap effect on the
caller's `state_dict` argument explicit: the source only reads `state_dict`
(it writes exclusively into the fresh `new_state_dict`), so the argument's
final contents are its initial contents. Returns
(returned new dict, final contents of the argument object). -/
def fine_tuning_sd_hook_st (module : Module) (state_dict : List (String × Nat)) :
    List (String × Nat) × List (String × Nat) :=
  (fine_tuning_sd_hook module state_dict, state_dict)

/-- The record of incompatible keys handed to a load-state-dict post hook. -/
structure IncompatibleKeys where
  missing_keys : List String
  unexpected_keys : List String
deriving DecidableEq

/-- `fine_tuning_loadsd_posthook(module, incompatible_keys)` (source lines
72-82): iterates over a copy of the missing-keys list and removes from the
live list (first occurrence, as Python `list.remove`) each key that is not in
the module's current state-dict key set. Returns the final state of the
mutated `incompatible_keys` record. -/
def fine_tuning_loadsd_posthook (module : Module)
    (incompatible_keys : IncompatibleKeys) : IncompatibleKeys :=
  let finetuned_sd_keys := (state_dict module "").map (fun kv => kv.1)
  let key_copys := incompatible_keys.missing_keys
  { incompatible_keys with
    missing_keys :=
      key_copys.foldl
        (fun missing key =>
          if key ∉ finetuned_sd_keys then missing.erase key else missing)
        incompatible_keys.missing_keys }

/-! ## Helper lemmas -/

theorem ModuleIterator.run_none {it : ModuleIterator} (h : it.next = none) :
    it.run = [] := by
  rw [ModuleIterator.run]
  split
  · rfl
  · rename_i item it' h2
    rw [h] at h2
    cases h2

theorem ModuleIterator.run_some {it it' : ModuleIterator} {item : IterItem}
    (h : it.next = some (item, it')) : it.run = item :: it'.run := by
  rw [ModuleIterator.run]
  split
  · rename_i h2
    rw [h] at h2
    cases h2
  · rename_i item2 it2 h2
    rw [h] at h2
    cases h2
    rfl

/-- What an iterator yields is exactly the untraversed part of its snapshot,
each entry dressed up as the 5-tuple `__next__` builds. -/
theorem ModuleIterator.run_eq (it : ModuleIterator) :
    it.run = (it.iterations.drop it._index).map
      (fun nc => (nc.1, globalName it.parent_name nc.1, nc.2.className, nc.2,
                  !nc.2.children.isEmpty)) := by
  induction it using ModuleIterator.run.induct with
  | case1 it h =>
    rw [ModuleIterator.run_none h]
    simp only [ModuleIterator.next] at h
    split at h
    · simp at h
    · rename_i hge
      rw [List.drop_eq_nil_of_le]
      · simp
      · simp only [ModuleIterator.len] at hge
        omega
  | case2 it item it' h ih =>
    rw [ModuleIterator.run_some h]
    simp only [ModuleIterator.next] at h
    split at h
    · rename_i hlt
      simp only [Option.some.injEq, Prod.mk.injEq] at h
      obtain ⟨h1, h2⟩ := h
      subst h2
      simp only [ModuleIterator.len] at hlt
      rw [List.drop_eq_getElem_cons hlt, List.map_cons, ← h1, ih]
      rfl
    · simp at h

theorem MResult.events_ok (m : Module) (es : List Event) :
    (MResult.ok m es).events = es := rfl

theorem MResult.events_error (msg : String) (es : List Event) :
    (MResult.error msg es).events = es := rfl

theorem MResult.events_prepend (es : List Event) (r : MResult) :
    (r.prepend es).events = es ++ r.events := by
  cases r <;> rfl

/-- The truth table of one loop iteration of `modify_modules` on a child that
is not already finetuable: the strategy is invoked first, and the second
recorded action is recursion into the child exactly when the strategy
returned `false` and the child has children, and freezing of the child in
every other case. -/
theorem modifyGo_cons_spec (fts : Strategy) (parent_name : String)
    (parent : Module) (name : String) (child : Module) (rest : List (String × Module))
    (hf : child.finetuable = false) :
    ((modifyGo fts parent_name parent ((name, child) :: rest)).events.get? 0 =
        some (.strat (globalName parent_name name)
          (fts parent name (globalName parent_name name) child.className child).1)) ∧
    (((modifyGo fts parent_name parent ((name, child) :: rest)).events.get? 1 =
        some (.enter (globalName parent_name name) child)) ↔
      ((fts parent name (globalName parent_name name) child.className child).1 = false ∧
        child.children ≠ [])) ∧
    (((modifyGo fts parent_name parent ((name, child) :: rest)).events.get? 1 =
        some (.freeze (globalName parent_name name) child)) ↔
      ¬((fts parent name (globalName parent_name name) child.className child).1 = false ∧
        child.children ≠ [])) := by
  rw [modifyGo]
  simp only [hf, Bool.false_eq_true, if_false]
  cases hfind : (fts parent name (globalName parent_name name) child.className child).1 with
  | false =>
    cases hch : child.children with
    | nil =>
      simp [hfind, hch, MResult.events_prepend, MResult.events_ok, MResult.events_error]
    | cons a l =>
      simp only [hfind, hch]
      cases hrec : modifyGo fts (globalName parent_name name) child child.children with
      | error msg es =>
        rw [hch] at hrec
        simp [hrec, MResult.events_prepend, MResult.events_ok, MResult.events_error]
      | ok child2 es =>
        rw [hch] at hrec
        simp [hrec, MResult.events_prepend, MResult.events_ok, MResult.events_error]
  | true =>
    simp [hfind, MResult.events_prepend, MResult.events_ok, MResult.events_error]

mutual

/-- Does the tree contain a node carrying the `FinetuableModule` marker? -/
def Module.containsFinetuable : Module → Bool
  | .mk children _ _ ft _ => ft || containsFinetuableChildren children

/-- List form of `Module.containsFinetuable`. -/
def containsFinetuableChildren : List (String × Module) → Bool
  | [] => false
  | (_, c) :: rest => c.containsFinetuable || containsFinetuableChildren rest

end

/-- Sample tree used to instantiate witness theorems. -/
def sampleLeaf : Module := .mk [] [("w", true)] [] false "Linear"

/-- Sample tree used to instantiate witness theorems. -/
def sampleRoot : Module := .mk [("fc", sampleLeaf)] [("own", true)] [("rb", 5)] false "Net"

/-! ## Claims -/

/-- C6: the global name produced by `ModuleIterator` for a yielded child is
the parent name, a dot, and the local name when the parent name is non-empty,
and the local name alone when the parent name is empty; child "b" of parent
"a" yields "a.b", child "b" of the root (parent name "") yields "b". -/
theorem global_name_construction :
    (∀ (it : ModuleIterator) (item : IterItem) (it' : ModuleIterator),
        it.next = some (item, it') → item.2.1 = globalName it.parent_name item.1) ∧
    (∀ parent_name layer_name : String, parent_name ≠ "" →
        globalName parent_name layer_name = parent_name ++ "." ++ layer_name) ∧
    (∀ layer_name : String, globalName "" layer_name = layer_name) ∧
    globalName "a" "b" = "a.b" ∧ globalName "" "b" = "b" := by
  refine ⟨?_, ?_, ?_, by decide, by decide⟩
  · intro it item it' h
    simp only [ModuleIterator.next] at h
    split at h
    · simp only [Option.some.injEq, Prod.mk.injEq] at h
      obtain ⟨h1, -⟩ := h
      rw [← h1]
    · cases h
  · intro parent_name layer_name h
    simp [globalName, h]
  · intro layer_name
    simp [globalName]

/-- Witness for C6 at concrete inputs. -/
theorem global_name_construction_witness :
    globalName "a" "child" = "a" ++ "." ++ "child" :=
  global_name_construction.2.1 "a" "child" (by decide)

/-- C7: a `ModuleIterator` yields exactly as many items as the module had
direct children at construction, the (name, child) pairs are those snapshotted
at construction, later replacement of the iterator's module does not change an
in-flight iteration, and once the snapshot is exhausted every further
`__next__` signals `StopIteration`. -/
theorem iterator_snapshot_semantics (module : Module) (pname : String) (m' : Module) :
    (ModuleIterator.init module pname).run.length = module.children.length ∧
    (ModuleIterator.init module pname).run.map (fun item => (item.1, item.2.2.2.1)) =
      module.children ∧
    (∀ it : ModuleIterator, ({ it with module := m' } : ModuleIterator).run = it.run) ∧
    (∀ it : ModuleIterator, it.len ≤ it._index → it.next = none) := by
  refine ⟨?_, ?_, ?_, ?_⟩
  · rw [ModuleIterator.run_eq]
    simp [ModuleIterator.init]
  · rw [ModuleIterator.run_eq]
    simp only [ModuleIterator.init, List.map_map]
    have h : ((fun (item : IterItem) => (item.1, item.2.2.2.1)) ∘
        (fun (nc : String × Module) =>
          (nc.1, globalName pname nc.1, nc.2.className, nc.2, !nc.2.children.isEmpty))) =
        id := by
      funext nc
      rfl
    rw [h, List.map_id, List.drop_zero]
  · intro it
    rw [ModuleIterator.run_eq, ModuleIterator.run_eq]
  · intro it h
    simp only [ModuleIterator.next]
    rw [dif_neg (by omega)]

/-- Witness for C7 at concrete inputs: an exhausted iterator over the sample
root signals end-of-iteration. -/
theorem iterator_snapshot_semantics_witness :
    (⟨sampleRoot, sampleRoot.children, 1, ""⟩ : ModuleIterator).next = none :=
  (iterator_snapshot_semantics sampleRoot "" sampleLeaf).2.2.2
    ⟨sampleRoot, sampleRoot.children, 1, ""⟩ (by decide)

/-- A strategy that matches nothing and replaces nothing, for witnesses. -/
def sampleStrategy : Strategy := fun _ _ _ _ _ => (false, none)

/-- C1: for every child yielded during the `modify_modules` walk (the head of
the remaining snapshot of any call) that is not already finetuable, the trace
records the strategy call first, and then recursion into the child if and
only if the strategy returned false AND the child has its own children;
in every other case — strategy returned true, or the child is childless —
the child is frozen (in particular a matched childless child is frozen). -/
theorem walk_recurse_freeze_rule (fts : Strategy) (parent_name : String)
    (parent : Module) (name : String) (child : Module) (rest : List (String × Module))
    (hf : child.finetuable = false) :
    ((modifyGo fts parent_name parent ((name, child) :: rest)).events.get? 0 =
        some (.strat (globalName parent_name name)
          (fts parent name (globalName parent_name name) child.className child).1)) ∧
    (((modifyGo fts parent_name parent ((name, child) :: rest)).events.get? 1 =
        some (.enter (globalName parent_name name) child)) ↔
      ((fts parent name (globalName parent_name name) child.className child).1 = false ∧
        child.children ≠ [])) ∧
    (((modifyGo fts parent_name parent ((name, child) :: rest)).events.get? 1 =
        some (.freeze (globalName parent_name name) child)) ↔
      ¬((fts parent name (globalName parent_name name) child.className child).1 = false ∧
        child.children ≠ [])) :=
  modifyGo_cons_spec fts parent_name parent name child rest hf

/-- Witness for C1 at concrete inputs: a matched-free walk over the sample
root invokes the strategy on child "fc" first, and freezes that childless
child. -/
theorem walk_recurse_freeze_rule_witness :
    ((modifyGo sampleStrategy "" sampleRoot [("fc", sampleLeaf)]).events.get? 1 =
        some (.freeze (globalName "" "fc") sampleLeaf)) ↔
      ¬((sampleStrategy sampleRoot "fc" (globalName "" "fc")
          sampleLeaf.className sampleLeaf).1 = false ∧ sampleLeaf.children ≠ []) :=
  (walk_recurse_freeze_rule sampleStrategy "" sampleRoot "fc" sampleLeaf [] rfl).2.2

/-- C2 (amended): whenever the walk reaches a child already carrying the
`FinetuableModule` marker, it raises the `ValueError` whose message names the
child's global dotted name, and its trace is empty — in particular the
strategy has not been invoked on that child. (The original claim — that any
tree *containing* a marked node raises — is refuted by
`finetuable_child_raises_counterexample`: only yielded children are
checked.) -/
theorem finetuable_child_raises (fts : Strategy) (parent_name : String)
    (parent : Module) (name : String) (child : Module) (rest : List (String × Module))
    (hf : child.finetuable = true) :
    modifyGo fts parent_name parent ((name, child) :: rest) =
      .error ("Layer " ++ globalName parent_name name ++ " is already finetuable") [] := by
  rw [modifyGo]
  simp [hf]

/-- A leaf already carrying the `FinetuableModule` marker. -/
def markedLeaf : Module := .mk [] [("w", true)] [] true "Marked"

/-- Witness for C2's amended theorem at concrete inputs. -/
theorem finetuable_child_raises_witness :
    modifyGo sampleStrategy "" sampleRoot [("m", markedLeaf)] =
      .error ("Layer " ++ globalName "" "m" ++ " is already finetuable") [] :=
  finetuable_child_raises sampleStrategy "" sampleRoot "m" markedLeaf [] rfl

/-- A marked node hidden one level down. -/
def c2MarkedNode : Module := .mk [] [] [] true "Marked"

/-- An unmarked composite whose only child is the marked node. -/
def c2Inner : Module := .mk [("B", c2MarkedNode)] [] [] false "A"

/-- A tree that contains a marked node at global name "a.B". -/
def c2Tree : Module := .mk [("a", c2Inner)] [] [] false "Root"

/-- A strategy that matches every child (and replaces nothing). -/
def c2Strategy : Strategy := fun _ _ _ _ _ => (true, none)

/-- C2 counterexample: this tree contains a node carrying the
`FinetuableModule` marker (at "a.B"), yet `modify_modules` completes without
raising any error: the marked node's parent "a" is matched by the strategy,
so the walk never recurses to — and never checks — the marked node. -/
theorem finetuable_child_raises_counterexample :
    c2Tree.containsFinetuable = true ∧
    modify_modules c2Tree c2Strategy =
      .ok (Module.mk [("a", freeze_module c2Inner)] [] [] false "Root")
        [.strat "a" true, .freeze "a" c2Inner] := by
  refine ⟨rfl, ?_⟩
  rw [modify_modules]
  simp [modifyGo.eq_def, c2Strategy, c2Inner, c2MarkedNode, Module.finetuable,
    Module.className, Module.children, globalName, MResult.prepend, Module.setChild,
    setChildIn, c2Tree, freeze_module, freezeChildren]

/-- Trainable leaf of the snapshot child. -/
def c3L : Module := .mk [] [("p", true)] [] false "L"

/-- Trainable leaf of the replacement. -/
def c3L2 : Module := .mk [] [("q", true)] [] false "L2"

/-- The original child "A", as captured in the iterator snapshot. -/
def c3A : Module := .mk [("L", c3L)] [] [] false "A"

/-- The replacement the strategy installs for "A". -/
def c3R : Module := .mk [("L2", c3L2)] [] [] false "R"

/-- Root whose only child is "A". -/
def c3Root : Module := .mk [("A", c3A)] [] [] false "Root"

/-- A strategy that replaces child "A" with `c3R` in the parent's registry and
returns false (unmatched). -/
def c3Strategy : Strategy := fun _ name _ _ _ =>
  if name = "A" then (false, some c3R) else (false, none)

/-- C3 (amended): when the strategy installs a replacement for a child in the
parent's registry and returns false, and the child has children, the walk
recurses into the ORIGINAL child object captured in the iterator's snapshot —
not into the replacement; afterwards the parent's registry holds the
replacement as installed by the strategy, the recursion's result on the
original being discarded. (The original claim — that the walk recurses into
the replacement as registered after the strategy call — is refuted by
`recursion_into_snapshot_child_counterexample`.) -/
theorem recursion_into_snapshot_child (fts : Strategy) (parent_name : String)
    (parent : Module) (name : String) (child r : Module) (rest : List (String × Module))
    (hf : child.finetuable = false)
    (hs : fts parent name (globalName parent_name name) child.className child = (false, some r))
    (hc : child.children ≠ []) :
    ((modifyGo fts parent_name parent ((name, child) :: rest)).events.get? 1 =
        some (.enter (globalName parent_name name) child)) ∧
    (∀ child2 es,
        modifyGo fts (globalName parent_name name) child child.children = .ok child2 es →
        modifyGo fts parent_name parent [(name, child)] =
          .ok (parent.setChild name r)
            ([.strat (globalName parent_name name) false,
              .enter (globalName parent_name name) child] ++ es)) := by
  constructor
  · exact (modifyGo_cons_spec fts parent_name parent name child rest hf).2.1.mpr
      ⟨by rw [hs], hc⟩
  · intro child2 es hrec
    rw [modifyGo]
    have hce : child.children.isEmpty = false := by
      simpa [List.isEmpty_iff] using hc
    simp [hf, hs, hce, hrec, MResult.prepend, modifyGo]

/-- Witness for C3's amended theorem at concrete inputs: the walk recurses
into the original child `c3A`. -/
theorem recursion_into_snapshot_child_witness :
    (modifyGo c3Strategy "" c3Root [("A", c3A)]).events.get? 1 =
      some (.enter (globalName "" "A") c3A) :=
  (recursion_into_snapshot_child c3Strategy "" c3Root "A" c3A c3R [] rfl rfl
    (by decide)).1

/-- C3 counterexample: the strategy replaces "A" (which has a child) with
`c3R` and returns false; the walk recurses into the original `c3A` — tracing
and freezing its leaf "A.L" — while the replacement `c3R` is what remains
registered, its own leaf "A.L2" never visited and still trainable. -/
theorem recursion_into_snapshot_child_counterexample :
    modify_modules c3Root c3Strategy =
      .ok (Module.mk [("A", c3R)] [] [] false "Root")
        [.strat "A" false, .enter "A" c3A, .strat "A.L" false, .freeze "A.L" c3L] ∧
    c3R ≠ c3A := by
  constructor
  · rw [modify_modules]
    simp [modifyGo.eq_def, c3Strategy, c3Root, c3A, c3R, c3L, c3L2, Module.finetuable,
      Module.className, Module.children, globalName, MResult.prepend, Module.setChild,
      setChildIn, freeze_module, freezeChildren]
  · decide


theorem modifyGo_shape (fts : Strategy) (pname : String) (parent : Module)
    (l : List (String × Module)) :
    (∃ m es, modifyGo fts pname parent l = .ok m es) ∨
    (∃ g es, modifyGo fts pname parent l =
      .error ("Layer " ++ g ++ " is already finetuable") es) := by
  induction pname, parent, l using modifyGo.induct
  case fine_tuning_strategy => exact fts
  case case1 pn parent2 =>
    left
    exact ⟨parent2, [], by rw [modifyGo]⟩
  case case2 pn parent2 name cm rest hft =>
    right
    exact ⟨globalName pn name, [], by rw [modifyGo]; simp [hft]⟩
  case case3 pn parent2 name cm rest gname hchild hnft res find hcond msg es hrec ih1 =>
    rcases ih1 with ⟨m, es2, hok⟩ | ⟨g, es2, herr⟩
    · rw [hok] at hrec
      cases hrec
    · right
      have hres : modifyGo fts pn parent2 ((name, cm) :: rest) =
          .error ("Layer " ++ g ++ " is already finetuable")
            ([.strat gname find, .enter gname cm] ++ es2) := by
        rw [modifyGo]
        simp [hnft, hcond, herr]
      exact ⟨g, _, hres⟩
  case case4 pn parent2 name cm rest gname hchild hnft res find registered hcond child2 es hrec ih1 ih2 =>
    rcases ih2 with ⟨m, es2, hok⟩ | ⟨g, es2, herr⟩
    · left
      have hres : modifyGo fts pn parent2 ((name, cm) :: rest) =
          .ok m ([.strat gname find, .enter gname cm] ++ es ++ es2) := by
        rw [modifyGo]
        simp [hnft, hcond, hrec, hok, MResult.prepend]
      exact ⟨m, _, hres⟩
    · right
      have hres : modifyGo fts pn parent2 ((name, cm) :: rest) =
          .error ("Layer " ++ g ++ " is already finetuable")
            ([.strat gname find, .enter gname cm] ++ es ++ es2) := by
        rw [modifyGo]
        simp [hnft, hcond, hrec, herr, MResult.prepend]
      exact ⟨g, _, hres⟩
  case case5 pn parent2 name cm rest gname hchild hnft res find registered hcond ih =>
    rcases ih with ⟨m, es2, hok⟩ | ⟨g, es2, herr⟩
    · left
      have hres : modifyGo fts pn parent2 ((name, cm) :: rest) =
          .ok m ([.strat gname find, .freeze gname cm] ++ es2) := by
        rw [modifyGo]
        simp [hnft, hcond, hok, MResult.prepend]
      exact ⟨m, _, hres⟩
    · right
      have hres : modifyGo fts pn parent2 ((name, cm) :: rest) =
          .error ("Layer " ++ g ++ " is already finetuable")
            ([.strat gname find, .freeze gname cm] ++ es2) := by
        rw [modifyGo]
        simp [hnft, hcond, herr, MResult.prepend]
      exact ⟨g, _, hres⟩


theorem setChild_preserves_own (m : Module) (n : String) (c : Module) :
    (m.setChild n c).params = m.params ∧ (m.setChild n c).finetuable = m.finetuable ∧
    (m.setChild n c).className = m.className ∧ (m.setChild n c).buffers = m.buffers := by
  cases m
  exact ⟨rfl, rfl, rfl, rfl⟩

theorem modifyGo_preserves_own (fts : Strategy) (pname : String) (parent : Module)
    (l : List (String × Module)) :
    ∀ m es, modifyGo fts pname parent l = .ok m es →
      m.params = parent.params ∧ m.finetuable = parent.finetuable ∧
      m.className = parent.className ∧ m.buffers = parent.buffers := by
  induction pname, parent, l using modifyGo.induct
  case fine_tuning_strategy => exact fts
  case case1 pn parent2 =>
    intro m es h
    rw [modifyGo] at h
    injection h with h1 h2
    subst h1
    exact ⟨rfl, rfl, rfl, rfl⟩
  case case2 pn parent2 name cm rest hft =>
    intro m es h
    rw [modifyGo] at h
    simp [hft] at h
  case case3 pn parent2 name cm rest gname hchild hnft res find hcond msg es hrec ih1 =>
    intro m es3 h
    rw [modifyGo] at h
    simp [hnft, hcond, hrec] at h
  case case4 pn parent2 name cm rest gname hchild hnft res find registered hcond child2 es hrec ih1 ih2 =>
    intro m es3 h
    rw [modifyGo] at h
    cases hcont : modifyGo fts pn (parent2.setChild name (registered.getD child2)) rest with
    | error msg2 es2 =>
      simp [hnft, hcond, hrec] at h
      rw [hcont] at h
      simp [MResult.prepend] at h
    | ok m2 es2 =>
      have hown := ih2 m2 es2 hcont
      simp [hnft, hcond, hrec] at h
      rw [hcont] at h
      simp [MResult.prepend] at h
      obtain ⟨hm, -⟩ := h
      subst hm
      obtain ⟨h1, h2, h3, h4⟩ := hown
      obtain ⟨s1, s2, s3, s4⟩ := setChild_preserves_own parent2 name (registered.getD child2)
      exact ⟨h1.trans s1, h2.trans s2, h3.trans s3, h4.trans s4⟩
  case case5 pn parent2 name cm rest gname hchild hnft res find registered hcond ih =>
    intro m es3 h
    rw [modifyGo] at h
    cases hcont : modifyGo fts pn (parent2.setChild name (registered.getD (freeze_module cm))) rest with
    | error msg2 es2 =>
      simp [hnft, hcond] at h
      rw [hcont] at h
      simp [MResult.prepend] at h
    | ok m2 es2 =>
      have hown := ih m2 es2 hcont
      simp [hnft, hcond] at h
      rw [hcont] at h
      simp [MResult.prepend] at h
      obtain ⟨hm, -⟩ := h
      subst hm
      obtain ⟨h1, h2, h3, h4⟩ := hown
      obtain ⟨s1, s2, s3, s4⟩ := setChild_preserves_own parent2 name (registered.getD (freeze_module cm))
      exact ⟨h1.trans s1, h2.trans s2, h3.trans s3, h4.trans s4⟩


/-- C8: for every finite module tree and every strategy, `modify_modules`
terminates with a definite outcome: either the walk completes normally, or it
raises the double-application `ValueError` (whose message always has the
"Layer ... is already finetuable" form) — there is no other failure mode and
no divergence; the embedding is a total function accepted by well-founded
recursion on the tree. -/
theorem modify_modules_terminates (module : Module) (fts : Strategy) (pname : String) :
    (∃ m es, modify_modules module fts pname = .ok m es) ∨
    (∃ g es, modify_modules module fts pname =
      .error ("Layer " ++ g ++ " is already finetuable") es) :=
  modifyGo_shape fts pname module module.children

/-- The sample root with the `FinetuableModule` marker set and no children. -/
def markedRoot : Module := .mk [] [("rw", true)] [] true "MarkedRoot"

/-- C10: the walk applies the marker check, the strategy and freezing only to
children yielded by the iterator and their descendants, never to the root
object passed in: a completed walk returns the root with its directly-owned
parameters, marker flag, class name and buffers untouched, and a childless
root — even one already carrying the `FinetuableModule` marker — completes
with no error and an empty trace (no strategy call, no freeze). -/
theorem root_not_transformed (module : Module) (fts : Strategy) (pname : String) :
    (∀ m es, modify_modules module fts pname = .ok m es →
      m.params = module.params ∧ m.finetuable = module.finetuable ∧
      m.className = module.className ∧ m.buffers = module.buffers) ∧
    (module.children = [] → modify_modules module fts pname = .ok module []) := by
  constructor
  · exact fun m es h => modifyGo_preserves_own fts pname module module.children m es h
  · intro h
    rw [modify_modules, h]
    rw [modifyGo]

/-- Witness for C10 at concrete inputs: a childless root carrying the marker
is not checked — the walk completes with no error, nothing frozen, its
trainable parameter untouched. -/
theorem root_not_transformed_witness :
    modify_modules markedRoot sampleStrategy "" = .ok markedRoot [] :=
  (root_not_transformed markedRoot sampleStrategy "").2 rfl

theorem foldl_filter_append (bad : List String) (l acc : List (String × Nat)) :
    l.foldl (fun a kv => if kv.1 ∉ bad then a ++ [kv] else a) acc =
      acc ++ l.filter (fun kv => decide (kv.1 ∉ bad)) := by
  induction l generalizing acc with
  | nil => simp
  | cons kv rest ih =>
    simp only [List.foldl_cons, List.filter_cons]
    by_cases h : kv.1 ∉ bad
    · rw [if_pos h, ih]
      simp [h]
    · rw [if_neg h, ih]
      simp [h]

/-- The save-filter hook is the positive filter on the input mapping by
"key is not the name of an untrainable parameter". -/
theorem fine_tuning_sd_hook_eq_filter (module : Module) (sd : List (String × Nat)) :
    fine_tuning_sd_hook module sd =
      sd.filter (fun kv => decide (kv.1 ∉
        ((named_parameters module "").filter (fun p => !p.2)).map (fun p => p.1))) := by
  rw [fine_tuning_sd_hook]
  rw [foldl_filter_append]
  simp

/-- A key is in the hook\'s exclusion list iff the module has a parameter of
that name with requires_grad false. -/
theorem mem_untrainable_names (nps : List (String × Bool)) (k : String) :
    k ∈ (nps.filter (fun p => !p.2)).map (fun p => p.1) ↔ (k, false) ∈ nps := by
  simp only [List.mem_map, List.mem_filter, Bool.not_eq_true']
  constructor
  · rintro ⟨⟨a, b⟩, ⟨hmem, hb⟩, rfl⟩
    subst hb
    exact hmem
  · intro hmem
    exact ⟨(k, false), ⟨hmem, rfl⟩, rfl⟩

/-- C4: `fine_tuning_sd_hook` returns exactly those entries of the input
mapping whose key is not the name of a parameter of the module with
requires_grad false; in particular an entry whose key is not a parameter name
at all (a buffer) is always retained, value unchanged. -/
theorem sd_hook_filters_untrainable (module : Module) (sd : List (String × Nat)) :
    (∀ kv : String × Nat,
      kv ∈ fine_tuning_sd_hook module sd ↔
        kv ∈ sd ∧ (kv.1, false) ∉ named_parameters module "") ∧
    (∀ k v, (k, v) ∈ sd → (∀ b, (k, b) ∉ named_parameters module "") →
      (k, v) ∈ fine_tuning_sd_hook module sd) := by
  constructor
  · intro kv
    rw [fine_tuning_sd_hook_eq_filter, List.mem_filter]
    simp [mem_untrainable_names]
  · intro k v hmem hnp
    rw [fine_tuning_sd_hook_eq_filter, List.mem_filter]
    simp [mem_untrainable_names]
    exact ⟨hmem, hnp false⟩

/-- C9: the hook leaves its input mapping unchanged — in the state-passing
form the caller\'s `state_dict` argument comes back with its initial contents,
the result being a freshly built mapping — and the retained entries appear in
the result in the same relative order as in the input (the result is a
sublist of the input). -/
theorem sd_hook_no_mutation_and_order (module : Module) (sd : List (String × Nat)) :
    fine_tuning_sd_hook_st module sd = (fine_tuning_sd_hook module sd, sd) ∧
    List.Sublist (fine_tuning_sd_hook module sd) sd := by
  refine ⟨rfl, ?_⟩
  rw [fine_tuning_sd_hook_eq_filter]
  exact List.filter_sublist sd

/-- Iterating over a copy of a list while conditionally `remove`-ing (first
occurrence) from the live list is the positive filter, for any prefix already
processed. -/
theorem foldl_erase_filter (keys : List String) : ∀ (todo pfx : List String),
    todo.foldl (fun missing key => if key ∉ keys then missing.erase key else missing)
      (pfx.filter (fun k => decide (k ∈ keys)) ++ todo) =
    (pfx ++ todo).filter (fun k => decide (k ∈ keys)) := by
  intro todo
  induction todo with
  | nil =>
    intro pfx
    simp
  | cons x rest ih =>
    intro pfx
    simp only [List.foldl_cons]
    by_cases hx : x ∈ keys
    · rw [if_neg (by simpa using hx)]
      have hstep : pfx.filter (fun k => decide (k ∈ keys)) ++ x :: rest =
          (pfx ++ [x]).filter (fun k => decide (k ∈ keys)) ++ rest := by
        simp [List.filter_append, hx]
      rw [hstep, ih (pfx ++ [x])]
      simp
    · rw [if_pos (by simpa using hx)]
      have hxnot : x ∉ pfx.filter (fun k => decide (k ∈ keys)) := by
        simp [List.mem_filter, hx]
      have hstep : (pfx.filter (fun k => decide (k ∈ keys)) ++ x :: rest).erase x =
          (pfx ++ [x]).filter (fun k => decide (k ∈ keys)) ++ rest := by
        rw [List.erase_append_right _ hxnot, List.erase_cons_head]
        simp [List.filter_append, hx]
      rw [hstep, ih (pfx ++ [x])]
      simp

/-- C5: `fine_tuning_loadsd_posthook` removes from the missing-keys list
exactly those keys not present in the module\'s own current state-dict key
set; a missing key that is in that key set is never removed (and the
unexpected-keys list is untouched). -/
theorem loadsd_posthook_exact (module : Module) (ik : IncompatibleKeys) :
    (fine_tuning_loadsd_posthook module ik).missing_keys =
      ik.missing_keys.filter
        (fun k => decide (k ∈ (state_dict module "").map (fun kv => kv.1))) ∧
    (fine_tuning_loadsd_posthook module ik).unexpected_keys = ik.unexpected_keys ∧
    (∀ k, k ∈ ik.missing_keys →
      k ∈ (state_dict module "").map (fun kv => kv.1) →
      k ∈ (fine_tuning_loadsd_posthook module ik).missing_keys) := by
  have hmain : (fine_tuning_loadsd_posthook module ik).missing_keys =
      ik.missing_keys.filter
        (fun k => decide (k ∈ (state_dict module "").map (fun kv => kv.1))) := by
    have h := foldl_erase_filter ((state_dict module "").map (fun kv => kv.1))
      ik.missing_keys []
    simp only [List.filter_nil, List.nil_append] at h
    rw [fine_tuning_loadsd_posthook]
    exact h
  refine ⟨hmain, rfl, ?_⟩
  intro k hk hsd
  rw [hmain, List.mem_filter]
  exact ⟨hk, by simpa using hsd⟩


/-- Witness for C4 at concrete inputs: a buffer-like entry (its key is no
parameter name) survives the filter. -/
theorem sd_hook_filters_untrainable_witness :
    ("rb", 5) ∈ fine_tuning_sd_hook sampleRoot [("rb", 5)] :=
  (sd_hook_filters_untrainable sampleRoot [("rb", 5)]).2 "rb" 5 (by decide) (by decide)

/-- Witness for C5 at concrete inputs: a genuinely missing key that the
module\'s state dict does define is kept in the missing-keys list. -/
theorem loadsd_posthook_exact_witness :
    "own" ∈ (fine_tuning_loadsd_posthook sampleRoot ⟨["own", "gone"], []⟩).missing_keys :=
  (loadsd_posthook_exact sampleRoot ⟨["own", "gone"], []⟩).2.2 "own" (by decide) (by decide)

end GIFt
